import Mathlib

/-!
Verification of core data-structure and refinement operations of the
mt-kahypar shared-memory multilevel hypergraph partitioner.

The development shallowly embeds:
* the parallel contraction operator of the static hypergraph
  (cluster compactification, per-edge coarse pin deduplication,
  identical-net detection and merging, coarse edge emission);
* the static hypergraph / graph construction of incident-net windows;
* the quotient-graph flow scheduler (quotient-graph build, cut-edge
  list maintenance, block-weight acquire/release arbitration);
* the localized k-way FM search (move tracker, gains, rollback);
* the articulation-point DFS scan of the natural-cut community detector.

Sequential semantics are used throughout: parallel loops of the source
are modelled as folds over the same iteration spaces, and scheduling
nondeterminism is modelled by explicitly quantified permutations.
-/

/-- A static hypergraph in the shape used by the contraction operator:
vertex weights, enabled flags, per-edge pin lists and edge weights,
addressed by vertex / edge ids below `numNodes` / `numEdges`. -/
structure Hypergraph where
  numNodes : Nat
  numEdges : Nat
  nodeWeight : Nat → Nat
  nodeEnabled : Nat → Bool
  edgeEnabled : Nat → Bool
  edgePins : Nat → List Nat
  edgeWeight : Nat → Nat

/-- A triangle-free valid example: three vertices, two distinct edges. -/
def Htri : Hypergraph :=
  { numNodes := 3
    numEdges := 2
    nodeWeight := fun _ => 1
    nodeEnabled := fun _ => true
    edgeEnabled := fun _ => true
    edgePins := fun e => if e = 0 then [0, 1] else [1, 2]
    edgeWeight := fun _ => 1 }

/-- A partitioned hypergraph as seen by the flow scheduler: `k` blocks,
hyperedges with pin lists and weights, and a partition assignment. -/
structure PartHG where
  k : Nat
  numEdges : Nat
  edgePins : Nat → List Nat
  edgeWeight : Nat → Nat
  partOf : Nat → Nat

/-- `pinCountInPart(he, b)`: the number of pins of `he` assigned to block `b`. -/
def pinCountInPart (phg : PartHG) (he b : Nat) : Nat :=
  ((phg.edgePins he).filter (fun v => phg.partOf v = b)).length

/-- `connectivitySet(he)`: the blocks with at least one pin of `he`,
iterated in increasing block id order. -/
def connectivitySet (phg : PartHG) (he : Nat) : List Nat :=
  (List.range phg.k).filter (fun b => 0 < pinCountInPart phg he b)

/-- `connectivity(he)`: the number of blocks in the connectivity set. -/
def connectivity (phg : PartHG) (he : Nat) : Nat :=
  (connectivitySet phg he).length

/-- State built by `SchedulerBase::buildQuotientGraph`: the set
`edge_list` of block pairs and the `_block_pair_cut_he` table. -/
structure QGState where
  edgeList : Finset (Nat × Nat)
  bpch : Nat × Nat → List Nat

/-- The ordered block pairs `(b0, b1)` with `b0 < b1` both present in the
connectivity set of `he` — the pairs visited by the two nested
connectivity-set loops of `buildQuotientGraph`. -/
def pairsOf (phg : PartHG) (he : Nat) : List (Nat × Nat) :=
  (connectivitySet phg he).flatMap (fun b0 =>
    (connectivitySet phg he).filterMap (fun b1 =>
      if b0 < b1 then some (b0, b1) else none))

/-- Record hyperedge `he` under one ordered block pair: insert the pair
into `edge_list` and push `he` onto `_block_pair_cut_he[b0][b1]`. -/
def pushPair (he : Nat) (st : QGState) (p : Nat × Nat) : QGState :=
  { edgeList := insert p st.edgeList
    bpch := Function.update st.bpch p (st.bpch p ++ [he]) }

/-- Record hyperedge `he` under every one of its ordered block pairs. -/
def addEdgePairs (phg : PartHG) (he : Nat) (st : QGState) : QGState :=
  (pairsOf phg he).foldl (pushPair he) st

/-- One iteration of the edge scan of `buildQuotientGraph`: edges with
connectivity greater than 1 contribute their block pairs. -/
def processEdge (phg : PartHG) (st : QGState) (he : Nat) : QGState :=
  if 1 < connectivity phg he then addEdgePairs phg he st else st

/-- `SchedulerBase::buildQuotientGraph`: scan all edges, recording every
ordered pair of connected blocks of each cut hyperedge; the quotient
graph is the set of populated pairs. -/
def buildQuotientGraph (phg : PartHG) : QGState :=
  (List.range phg.numEdges).foldl (processEdge phg) ⟨∅, fun _ => []⟩

theorem mem_pairsOf {phg : PartHG} {he : Nat} {p : Nat × Nat} :
    p ∈ pairsOf phg he ↔
      p.1 ∈ connectivitySet phg he ∧ p.2 ∈ connectivitySet phg he ∧ p.1 < p.2 := by
  cases p with
  | mk b0 b1 =>
    simp only [pairsOf, List.mem_flatMap, List.mem_filterMap]
    constructor
    · rintro ⟨a0, ha0, a1, ha1, hif⟩
      by_cases hlt : a0 < a1
      · rw [if_pos hlt] at hif
        cases hif
        exact ⟨ha0, ha1, hlt⟩
      · rw [if_neg hlt] at hif
        cases hif
    · rintro ⟨h0, h1, hlt⟩
      exact ⟨b0, h0, b1, h1, by rw [if_pos hlt]⟩

theorem mem_edgeList_foldl_pushPair {he : Nat} (l : List (Nat × Nat)) (st : QGState)
    (p : Nat × Nat) :
    p ∈ (l.foldl (pushPair he) st).edgeList ↔ p ∈ l ∨ p ∈ st.edgeList := by
  induction l generalizing st with
  | nil => simp
  | cons q t ih =>
    simp only [List.foldl_cons, ih, pushPair, Finset.mem_insert, List.mem_cons]
    tauto

theorem mem_bpch_foldl_pushPair_mono {he : Nat} (l : List (Nat × Nat)) (st : QGState)
    (q : Nat × Nat) (x : Nat) (hx : x ∈ st.bpch q) :
    x ∈ (l.foldl (pushPair he) st).bpch q := by
  induction l generalizing st with
  | nil => exact hx
  | cons r t ih =>
    simp only [List.foldl_cons]
    apply ih
    simp only [pushPair]
    by_cases hrq : r = q
    · subst hrq
      rw [Function.update_same]
      exact List.mem_append_left _ hx
    · rw [Function.update_noteq (fun h => hrq h.symm)]
      exact hx

theorem he_mem_bpch_foldl_pushPair (he : Nat) (l : List (Nat × Nat)) (st : QGState)
    {q : Nat × Nat} (hq : q ∈ l) :
    he ∈ (l.foldl (pushPair he) st).bpch q := by
  induction l generalizing st with
  | nil => cases hq
  | cons r t ih =>
    rcases List.mem_cons.mp hq with rfl | hq'
    · simp only [List.foldl_cons]
      apply mem_bpch_foldl_pushPair_mono
      simp [pushPair, Function.update_same]
    · exact ih _ hq'

theorem mem_edgeList_processFold (phg : PartHG) (edges : List Nat) (st : QGState)
    (p : Nat × Nat) :
    p ∈ (edges.foldl (processEdge phg) st).edgeList ↔
      (∃ he ∈ edges, 1 < connectivity phg he ∧ p ∈ pairsOf phg he) ∨ p ∈ st.edgeList := by
  induction edges generalizing st with
  | nil => simp
  | cons e t ih =>
    simp only [List.foldl_cons, ih]
    by_cases hc : 1 < connectivity phg e
    · simp only [processEdge, if_pos hc, addEdgePairs, mem_edgeList_foldl_pushPair]
      constructor
      · rintro (⟨he, hhe, hconn, hp⟩ | hp | hp)
        · exact Or.inl ⟨he, List.mem_cons_of_mem _ hhe, hconn, hp⟩
        · exact Or.inl ⟨e, List.mem_cons_self _ _, hc, hp⟩
        · exact Or.inr hp
      · rintro (⟨he, hhe, hconn, hp⟩ | hp)
        · rcases List.mem_cons.mp hhe with rfl | hhe'
          · exact Or.inr (Or.inl hp)
          · exact Or.inl ⟨he, hhe', hconn, hp⟩
        · exact Or.inr (Or.inr hp)
    · simp only [processEdge, if_neg hc]
      constructor
      · rintro (⟨he, hhe, hconn, hp⟩ | hp)
        · exact Or.inl ⟨he, List.mem_cons_of_mem _ hhe, hconn, hp⟩
        · exact Or.inr hp
      · rintro (⟨he, hhe, hconn, hp⟩ | hp)
        · rcases List.mem_cons.mp hhe with rfl | hhe'
          · exact absurd hconn hc
          · exact Or.inl ⟨he, hhe', hconn, hp⟩
        · exact Or.inr hp

theorem bpch_mono_processFold (phg : PartHG) (edges : List Nat) (st : QGState)
    (q : Nat × Nat) (x : Nat) (hx : x ∈ st.bpch q) :
    x ∈ (edges.foldl (processEdge phg) st).bpch q := by
  induction edges generalizing st with
  | nil => exact hx
  | cons e t ih =>
    simp only [List.foldl_cons]
    apply ih
    by_cases hc : 1 < connectivity phg e
    · simp only [processEdge, if_pos hc, addEdgePairs]
      exact mem_bpch_foldl_pushPair_mono _ _ _ _ hx
    · simpa only [processEdge, if_neg hc] using hx

theorem he_recorded_processFold (phg : PartHG) (edges : List Nat) (st : QGState)
    {he : Nat} (hhe : he ∈ edges) (hconn : 1 < connectivity phg he)
    {p : Nat × Nat} (hp : p ∈ pairsOf phg he) :
    he ∈ (edges.foldl (processEdge phg) st).bpch p := by
  induction edges generalizing st with
  | nil => cases hhe
  | cons e t ih =>
    rcases List.mem_cons.mp hhe with rfl | hhe'
    · simp only [List.foldl_cons]
      apply bpch_mono_processFold
      simp only [processEdge, if_pos hconn, addEdgePairs]
      exact he_mem_bpch_foldl_pushPair _ _ _ hp
    · simp only [List.foldl_cons]
      exact ih _ hhe'

/-- C3: after `buildQuotientGraph`, the quotient graph contains the pair
`(b0, b1)` with `b0 < b1` iff some hyperedge with connectivity greater
than 1 has both blocks in its connectivity set, and every such hyperedge
occurs in the cut-edge list of the pair. -/
theorem buildQuotientGraph_pairs (phg : PartHG) (b0 b1 : Nat) :
    ((b0, b1) ∈ (buildQuotientGraph phg).edgeList ↔
      b0 < b1 ∧ ∃ he, he < phg.numEdges ∧ 1 < connectivity phg he ∧
        b0 ∈ connectivitySet phg he ∧ b1 ∈ connectivitySet phg he)
    ∧ (∀ he, he < phg.numEdges → 1 < connectivity phg he →
        b0 ∈ connectivitySet phg he → b1 ∈ connectivitySet phg he → b0 < b1 →
        he ∈ (buildQuotientGraph phg).bpch (b0, b1)) := by
  constructor
  · rw [buildQuotientGraph, mem_edgeList_processFold]
    simp only [Finset.not_mem_empty, or_false]
    constructor
    · rintro ⟨he, hhe, hconn, hp⟩
      have hpp := mem_pairsOf.mp hp
      exact ⟨hpp.2.2, he, List.mem_range.mp hhe, hconn, hpp.1, hpp.2.1⟩
    · rintro ⟨hlt, he, hhe, hconn, h0, h1⟩
      exact ⟨he, List.mem_range.mpr hhe, hconn, mem_pairsOf.mpr ⟨h0, h1, hlt⟩⟩
  · intro he hhe hconn h0 h1 hlt
    rw [buildQuotientGraph]
    exact he_recorded_processFold phg _ _ (List.mem_range.mpr hhe) hconn
      (mem_pairsOf.mpr ⟨h0, h1, hlt⟩)

/-- Two blocks, one cut hyperedge with one pin on each side. -/
def phgEx : PartHG :=
  { k := 2
    numEdges := 1
    edgePins := fun _ => [0, 1]
    edgeWeight := fun _ => 1
    partOf := fun v => if v = 0 then 0 else 1 }

theorem buildQuotientGraph_pairs_witness :
    (0, 1) ∈ (buildQuotientGraph phgEx).edgeList ∧
      0 ∈ (buildQuotientGraph phgEx).bpch (0, 1) :=
  ⟨(buildQuotientGraph_pairs phgEx 0 1).1.mpr
      ⟨by decide, 0, by decide, by decide, by decide, by decide⟩,
    (buildQuotientGraph_pairs phgEx 0 1).2 0 (by decide) (by decide) (by decide)
      (by decide) (by decide)⟩

/-- One pass of `SchedulerBase::updateBlockPairCutHyperedges`, with
explicit fuel (the fuel never runs out: it starts at the list length and
each step shortens the pending list by one). `pending` holds the entries
from the current index to the end; an entry failing the pin-count test
or already visited is swap-removed with the last element and the index
is revisited; the visited bit is set in both cases. -/
def updateRunGo (cond : Nat → Bool) : Nat → List Nat → List Nat → List Nat
  | 0, _, _ => []
  | _ + 1, [], _ => []
  | k + 1, he :: rest, vis =>
    if cond he = true ∧ he ∉ vis then he :: updateRunGo cond k rest (he :: vis)
    else
      match rest with
      | [] => []
      | y :: ys => updateRunGo cond k ((y :: ys).getLast (by simp) :: (y :: ys).dropLast) (he :: vis)

/-- The compaction loop of `updateBlockPairCutHyperedges` on a stored
cut-edge list. -/
def updateRun (cond : Nat → Bool) (l : List Nat) (vis : List Nat) : List Nat :=
  updateRunGo cond l.length l vis

theorem updateRunGo_sound (cond : Nat → Bool) :
    ∀ (n : Nat) (l : List Nat), l.length ≤ n → ∀ (vis : List Nat),
      (updateRunGo cond n l vis).Nodup ∧
        ∀ he ∈ updateRunGo cond n l vis, cond he = true ∧ he ∉ vis := by
  intro n
  induction n with
  | zero =>
    intro l hl vis
    simp [updateRunGo]
  | succ k ih =>
    intro l hl vis
    cases l with
    | nil => simp [updateRunGo]
    | cons he rest =>
      by_cases hkeep : cond he = true ∧ he ∉ vis
      · rw [updateRunGo.eq_def]
        simp only [if_pos hkeep]
        have hrest : rest.length ≤ k := by simp at hl; omega
        obtain ⟨hnd, hmem⟩ := ih rest hrest (he :: vis)
        constructor
        · refine List.nodup_cons.mpr ⟨?_, hnd⟩
          intro hin
          exact (hmem he hin).2 (List.mem_cons_self _ _)
        · intro x hx
          rcases List.mem_cons.mp hx with rfl | hx'
          · exact hkeep
          · obtain ⟨hc, hnv⟩ := hmem x hx'
            exact ⟨hc, fun hv => hnv (List.mem_cons_of_mem _ hv)⟩
      · rw [updateRunGo.eq_def]
        simp only [if_neg hkeep]
        cases rest with
        | nil => simp
        | cons y ys =>
          have hlen : ((y :: ys).getLast (by simp) :: (y :: ys).dropLast).length ≤ k := by
            simp only [List.length_cons, List.length_dropLast] at hl ⊢
            omega
          obtain ⟨hnd, hmem⟩ := ih _ hlen (he :: vis)
          refine ⟨hnd, fun x hx => ?_⟩
          obtain ⟨hc, hnv⟩ := hmem x hx
          exact ⟨hc, fun hv => hnv (List.mem_cons_of_mem _ hv)⟩

/-- `SchedulerBase::updateBlockPairCutHyperedges(b0, b1)` applied to the
stored list `_block_pair_cut_he[b0][b1]`: filter out stale entries (no
pin in one of the two blocks) and duplicates, using swap-removal and a
fresh visited bitmap. -/
def updateBlockPairCutHyperedges (phg : PartHG) (b0 b1 : Nat) (stored : List Nat) : List Nat :=
  updateRun
    (fun he => decide (0 < pinCountInPart phg he b0) && decide (0 < pinCountInPart phg he b1))
    stored []

/-- `SchedulerBase::blockPairCutHyperedges(b0, b1)`: run the update pass
and return the resulting stored list. -/
def blockPairCutHyperedges (phg : PartHG) (b0 b1 : Nat) (stored : List Nat) : List Nat :=
  updateBlockPairCutHyperedges phg b0 b1 stored

/-- C10: for blocks `b0 < b1`, the list returned by
`blockPairCutHyperedges` (run sequentially) contains no hyperedge more
than once, and every hyperedge in it has at least one pin in block `b0`
and at least one pin in block `b1`, whatever was stored before. -/
theorem blockPairCutHyperedges_nodup_and_cut (phg : PartHG) (b0 b1 : Nat)
    (stored : List Nat) (hlt : b0 < b1) :
    (blockPairCutHyperedges phg b0 b1 stored).Nodup ∧
      ∀ he ∈ blockPairCutHyperedges phg b0 b1 stored,
        0 < pinCountInPart phg he b0 ∧ 0 < pinCountInPart phg he b1 := by
  obtain ⟨hnd, hmem⟩ := updateRunGo_sound
    (fun he => decide (0 < pinCountInPart phg he b0) && decide (0 < pinCountInPart phg he b1))
    stored.length stored (le_refl _) []
  refine ⟨hnd, fun he hin => ?_⟩
  have hc := (hmem he hin).1
  simp only [Bool.and_eq_true, decide_eq_true_eq] at hc
  exact hc

theorem blockPairCutHyperedges_nodup_and_cut_witness :
    (0 < 1) ∧ (blockPairCutHyperedges phgEx 0 1 [0, 0]).Nodup :=
  ⟨by decide, (blockPairCutHyperedges_nodup_and_cut phgEx 0 1 [0, 0] (by decide)).1⟩

/-- Write one entry of the k-by-k block-weight matrix. -/
def setW (i j v : Nat) (W : Nat → Nat → Nat) : Nat → Nat → Nat :=
  fun x y => if x = i ∧ y = j then v else W x y

/-- `SchedulerBase::aquire_block_weight(b, b', a)` (under the row write
lock): `W[b][b'] = a; W[b][b] -= a;` — note the first statement is an
assignment, not an addition. -/
def aquire_block_weight (b b' a : Nat) (W : Nat → Nat → Nat) : Nat → Nat → Nat :=
  let W1 := setW b b' a W
  setW b b (W1 b b - a) W1

/-- `SchedulerBase::release_block_weight(b, b', a)` (under the row write
lock): `W[b][b'] = 0; W[b][b] += a;`. -/
def release_block_weight (b b' a : Nat) (W : Nat → Nat → Nat) : Nat → Nat → Nat :=
  let W1 := setW b b' 0 W
  setW b b (W1 b b + a) W1

/-- A block-weight matrix with a nonzero off-diagonal entry `W[0][1] = 5`. -/
def Wc : Nat → Nat → Nat := fun i j => if i = 0 ∧ j = 1 then 5 else 10

/-- C6 counterexample: with `W[0][1] = 5` beforehand (blocks `0 ≠ 1`,
amount `3 ≤ W[0][0] = 10`), acquire followed by release leaves
`W[0][1] = 0`, so the matrix is not restored: `release` assigns 0 to the
off-diagonal slot instead of subtracting the amount. -/
theorem aquire_release_not_restore :
    release_block_weight 0 1 3 (aquire_block_weight 0 1 3 Wc) 0 1 = 0 ∧ Wc 0 1 = 5 ∧
      3 ≤ Wc 0 0 := by
  decide

/-- C6 (amended): if additionally `W[b][b'] = 0` before the acquire — as
holds after `init_block_weights`, which zeroes all off-diagonal entries —
then acquire of `a ≤ W[b][b]` from row `b` towards `b'` followed by
release with no interleaved operations on row `b` restores the matrix. -/
theorem aquire_release_restores (W : Nat → Nat → Nat) (b b' a : Nat)
    (hne : b ≠ b') (hle : a ≤ W b b) (hzero : W b b' = 0) :
    release_block_weight b b' a (aquire_block_weight b b' a W) = W := by
  funext i j
  simp only [release_block_weight, aquire_block_weight, setW]
  by_cases hi : i = b
  · by_cases hj : j = b
    · simp [hi, hj, hne, Nat.sub_add_cancel hle]
    · by_cases hj' : j = b'
      · simp [hi, hj, hj', hne, hzero, Ne.symm hne]
      · simp [hi, hj, hj', hne]
  · simp [hi]

/-- A block-weight matrix as left by `init_block_weights`: diagonal
entries hold part weights, off-diagonals are zero. -/
def Wd : Nat → Nat → Nat := fun i j => if i = j then 10 else 0

theorem aquire_release_restores_witness :
    ((0 : Nat) ≠ 1 ∧ 3 ≤ Wd 0 0 ∧ Wd 0 1 = 0) ∧
      release_block_weight 0 1 3 (aquire_block_weight 0 1 3 Wd) = Wd :=
  ⟨⟨by decide, by decide, by decide⟩,
    aquire_release_restores Wd 0 1 3 (by decide) (by decide) (by decide)⟩

/-- The hyperedges of `H` incident to vertex `v` (the adjoint of the
pin lists), in edge order. -/
def incidentEdges (H : Hypergraph) (v : Nat) : List Nat :=
  (List.range H.numEdges).filter (fun e => v ∈ H.edgePins e)

/-- The pin slots visited by the double loop
`for e in incidentEdges(v): for u in pins(e)` of `depthFirstSearch`. -/
def pinTraversal (H : Hypergraph) (v : Nat) : List Nat :=
  (incidentEdges H v).flatMap H.edgePins

/-- Mutable state of the popped-vertex scan of `depthFirstSearch`. -/
structure DFSState where
  parent : Nat → Nat
  low : Nat → Nat
  children : Nat
  isArt : Bool

/-- One iteration of the popped-vertex scan of `depthFirstSearch` for
pin `u` of a hyperedge incident to `v`. The C++ test `if (parent[u] = v)`
is an assignment: it stores `v` into `parent[u]` and then tests the
assigned value, so the child branch is taken exactly when `v ≠ 0`.
In the child branch the low point of `v` is lowered to `lowPoint[u]`, the
child counter is bumped, and `v` is flagged as articulation point when
`lowPoint[u] ≥ depth[v]`; otherwise (only when `v = 0`) the non-child
branch applies if `parent[v] ≠ u`. -/
def scanStep (v : Nat) (depth : Nat → Nat) (st : DFSState) (u : Nat) : DFSState :=
  let parentNew := Function.update st.parent u v
  if v ≠ 0 then
    { parent := parentNew
      low := Function.update st.low v (min (st.low v) (st.low u))
      children := st.children + 1
      isArt := if depth v ≤ st.low u then true else st.isArt }
  else if parentNew v ≠ u then
    { parent := parentNew
      low := Function.update st.low v (min (st.low v) (st.low u))
      children := st.children
      isArt := st.isArt }
  else
    { st with parent := parentNew }

/-- The full scan over all pins of all edges incident to the popped
vertex `v` (lines 47-59 of `natural_cut_detection.cpp`). -/
def scanPoppedVertex (H : Hypergraph) (v : Nat) (depth : Nat → Nat)
    (st : DFSState) : DFSState :=
  (pinTraversal H v).foldl (scanStep v depth) st

theorem scanStep_parent (v : Nat) (depth : Nat → Nat) (st : DFSState) (u : Nat) :
    (scanStep v depth st u).parent = Function.update st.parent u v := by
  rw [scanStep]
  by_cases hv : v ≠ 0
  · rw [if_pos hv]
  · rw [if_neg hv]
    by_cases hp : Function.update st.parent u v v ≠ u
    · rw [if_pos hp]
    · rw [if_neg hp]

theorem scan_parent_eq (v : Nat) (depth : Nat → Nat) :
    ∀ (l : List Nat) (st : DFSState) (u : Nat),
      (u ∈ l ∨ st.parent u = v) → (l.foldl (scanStep v depth) st).parent u = v := by
  intro l
  induction l with
  | nil =>
    intro st u hu
    rcases hu with hu | hu
    · cases hu
    · exact hu
  | cons x t ih =>
    intro st u hu
    simp only [List.foldl_cons]
    apply ih
    by_cases hux : u = x
    · subst hux
      right
      rw [scanStep_parent, Function.update_same]
    · rcases hu with hu | hu
      · rcases List.mem_cons.mp hu with h | h
        · exact absurd h hux
        · exact Or.inl h
      · right
        rw [scanStep_parent, Function.update_noteq hux]
        exact hu

theorem scan_children_count (v : Nat) (depth : Nat → Nat) (hv : v ≠ 0) :
    ∀ (l : List Nat) (st : DFSState),
      (l.foldl (scanStep v depth) st).children = st.children + l.length := by
  intro l
  induction l with
  | nil => intro st; simp
  | cons x t ih =>
    intro st
    simp only [List.foldl_cons, ih]
    rw [scanStep, if_pos hv]
    simp only [List.length_cons]
    omega

/-- C9: the child test of the popped-vertex scan in `depthFirstSearch`
is the assignment `parent[u] = v`, not a comparison; consequently, for
every popped vertex `v ≠ 0` the child branch is taken for every pin `u`
of every edge incident to `v` (the child counter grows by the number of
visited pin slots) and `parent[u] = v` holds for all those pins after
the scan. -/
theorem dfs_child_branch_assignment (H : Hypergraph) (v : Nat) (depth : Nat → Nat)
    (st : DFSState) (hv : v ≠ 0) :
    (scanPoppedVertex H v depth st).children = st.children + (pinTraversal H v).length
    ∧ ∀ u ∈ pinTraversal H v, (scanPoppedVertex H v depth st).parent u = v := by
  constructor
  · exact scan_children_count v depth hv (pinTraversal H v) st
  · intro u hu
    exact scan_parent_eq v depth (pinTraversal H v) st u (Or.inl hu)

/-- An all-zero DFS state over `Htri`. -/
def dfsSt0 : DFSState :=
  { parent := fun _ => 0, low := fun _ => 0, children := 0, isArt := false }

theorem dfs_child_branch_assignment_witness :
    ((1 : Nat) ≠ 0) ∧
      ((scanPoppedVertex Htri 1 (fun _ => 0) dfsSt0).children =
        dfsSt0.children + (pinTraversal Htri 1).length) :=
  ⟨by decide, (dfs_child_branch_assignment Htri 1 (fun _ => 0) dfsSt0 (by decide)).1⟩

/-- Modelled from the spec: the km1 objective (spec glossary and
`metrics.h`): sum over edges of `(connectivity - 1) * weight`, the
subtraction clamped at zero. -/
def km1 (phg : PartHG) : Nat :=
  ((List.range phg.numEdges).map
    (fun he => (connectivity phg he - 1) * phg.edgeWeight he)).sum

/-- `changeNodePart(v, from, to)`: reassign vertex `v` to block `to`
(the `from` block is the vertex's current block and is only read). -/
def changeNodePart (phg : PartHG) (v _srcBlock dstBlock : Nat) : PartHG :=
  { phg with partOf := Function.update phg.partOf v dstBlock }

/-- Modelled from the spec: one entry of the FM move tracker:
`Move{v, from, to, gain}`, plus the reverted/invalid marker (rollback
marks the gains of reverted moves invalid). -/
structure FMMove where
  v : Nat
  src : Nat
  dst : Nat
  gain : Int
  valid : Bool

/-- Modelled from the spec: the accepted-move phase of one localized FM
search (`findMoves`): apply the chosen moves in order via `change_part`,
recording each in the tracker with its km1 gain (the km1 decrease it
caused). The chosen sequence `raw` of (vertex, target-block) pairs
abstracts the priority-queue policy. -/
def runMoves (phg : PartHG) : List (Nat × Nat) → PartHG × List FMMove
  | [] => (phg, [])
  | p :: ps =>
    let srcb := phg.partOf p.1
    let phg2 := changeNodePart phg p.1 srcb p.2
    let rest := runMoves phg2 ps
    (rest.1,
      { v := p.1, src := srcb, dst := p.2,
        gain := (km1 phg : Int) - (km1 phg2 : Int), valid := true } :: rest.2)

/-- Cumulative gain of the tracker prefix of length `p`. -/
def gainUpTo (tr : List FMMove) (p : Nat) : Int :=
  ((tr.take p).map (fun m => m.gain)).sum

/-- Modelled from the spec: `best_prefix`, the move-id prefix maximizing
cumulative gain (first maximizer). -/
def bestIdx (tr : List FMMove) : Nat :=
  (List.range (tr.length + 1)).foldl
    (fun best p => if gainUpTo tr best < gainUpTo tr p then p else best) 0

/-- Mark a tracker entry's gain invalid (the reverted marker). -/
def markInvalid (m : FMMove) : FMMove :=
  { m with valid := false }

/-- Revert a list of tracked moves in LIFO order via the inverse
`change_part` (move each vertex from its `to` block back to `from`). -/
def revertMoves (phg : PartHG) (ms : List FMMove) : PartHG :=
  ms.reverse.foldl (fun g m => changeNodePart g m.v m.dst m.src) phg

/-- Modelled from the spec: rollback. All moves after `best_prefix` are
reverted in LIFO order and their tracker gains are marked invalid. -/
def rollbackToBest (phg : PartHG) (tr : List FMMove) : PartHG × List FMMove :=
  (revertMoves phg (tr.drop (bestIdx tr)),
    tr.take (bestIdx tr) ++ (tr.drop (bestIdx tr)).map markInvalid)

/-- One localized FM search: apply the moves, then roll back to the best
prefix. Returns the final partition and the tracker. -/
def findMovesModel (phg : PartHG) (raw : List (Nat × Nat)) : PartHG × List FMMove :=
  rollbackToBest (runMoves phg raw).1 (runMoves phg raw).2

theorem runMoves_append (phg : PartHG) (l1 l2 : List (Nat × Nat)) :
    runMoves phg (l1 ++ l2) =
      ((runMoves (runMoves phg l1).1 l2).1,
        (runMoves phg l1).2 ++ (runMoves (runMoves phg l1).1 l2).2) := by
  induction l1 generalizing phg with
  | nil => simp [runMoves]
  | cons p ps ih =>
    simp only [List.cons_append, runMoves, ih, List.append_eq]

theorem runMoves_length (phg : PartHG) (l : List (Nat × Nat)) :
    (runMoves phg l).2.length = l.length := by
  induction l generalizing phg with
  | nil => rfl
  | cons p ps ih =>
    simp only [runMoves, List.length_cons, ih]

theorem runMoves_all_valid (phg : PartHG) (l : List (Nat × Nat)) :
    ∀ m ∈ (runMoves phg l).2, m.valid = true := by
  induction l generalizing phg with
  | nil => intro m hm; cases hm
  | cons p ps ih =>
    intro m hm
    rcases List.mem_cons.mp hm with rfl | hm'
    · rfl
    · exact ih _ m hm'

theorem revert_runMoves (phg : PartHG) (l : List (Nat × Nat)) :
    revertMoves (runMoves phg l).1 (runMoves phg l).2 = phg := by
  induction l generalizing phg with
  | nil => rfl
  | cons p ps ih =>
    simp only [runMoves, revertMoves, List.reverse_cons, List.foldl_append, List.foldl_cons,
      List.foldl_nil]
    have hstep := ih (changeNodePart phg p.1 (phg.partOf p.1) p.2)
    rw [revertMoves] at hstep
    rw [hstep]
    simp only [changeNodePart]
    rw [Function.update_idem, Function.update_eq_self]

theorem km1_runMoves (phg : PartHG) (l : List (Nat × Nat)) :
    (km1 (runMoves phg l).1 : Int) =
      (km1 phg : Int) - ((runMoves phg l).2.map (fun m => m.gain)).sum := by
  induction l generalizing phg with
  | nil => simp [runMoves]
  | cons p ps ih =>
    simp only [runMoves, List.map_cons, List.sum_cons]
    rw [ih]
    omega

theorem bestIdx_le (tr : List FMMove) : bestIdx tr ≤ tr.length := by
  rw [bestIdx]
  have hgen : ∀ (l : List Nat) (acc : Nat), (∀ x ∈ l, x ≤ tr.length) → acc ≤ tr.length →
      l.foldl (fun best p => if gainUpTo tr best < gainUpTo tr p then p else best) acc
        ≤ tr.length := by
    intro l
    induction l with
    | nil => intro acc _ hacc; exact hacc
    | cons x t ih =>
      intro acc hl hacc
      simp only [List.foldl_cons]
      apply ih
      · intro y hy; exact hl y (List.mem_cons_of_mem _ hy)
      · by_cases h : gainUpTo tr acc < gainUpTo tr x
        · rw [if_pos h]; exact hl x (List.mem_cons_self _ _)
        · rw [if_neg h]; exact hacc
  apply hgen
  · intro x hx
    have := List.mem_range.mp hx
    omega
  · omega

theorem revertMoves_map_markInvalid (g : PartHG) (ms : List FMMove) :
    revertMoves g (ms.map markInvalid) = revertMoves g ms := by
  rw [revertMoves, revertMoves, ← List.map_reverse, List.foldl_map]
  rfl

theorem fm_rollback_aux (phg : PartHG) (raw : List (Nat × Nat)) (p : Nat)
    (hp : p ≤ raw.length) :
    revertMoves (runMoves phg raw).1 ((runMoves phg raw).2.drop p)
      = (runMoves phg (raw.take p)).1
    ∧ (runMoves phg raw).2.take p = (runMoves phg (raw.take p)).2 := by
  have hsplit := runMoves_append phg (raw.take p) (raw.drop p)
  rw [List.take_append_drop] at hsplit
  have hA2len : (runMoves phg (raw.take p)).2.length = p := by
    rw [runMoves_length]
    exact List.length_take_of_le hp
  constructor
  · rw [hsplit]
    simp only
    rw [List.drop_left' hA2len]
    exact revert_runMoves _ _
  · rw [hsplit]
    simp only
    rw [List.take_left' hA2len]

/-- C8: after one localized FM search (apply moves, then roll back past
the best prefix), the km1 objective equals its value before the search
minus the sum of the tracker gains not marked invalid; and the moves
reverted during rollback are exactly those whose tracker gains are
marked invalid (reverting precisely the invalid-marked entries of the
tracker from the pre-rollback partition yields the final partition). -/
theorem fm_rollback_km1_accounting (phg : PartHG) (raw : List (Nat × Nat)) :
    ((km1 (findMovesModel phg raw).1 : Int) =
      (km1 phg : Int) -
        (((findMovesModel phg raw).2.filter (fun m => m.valid)).map (fun m => m.gain)).sum)
    ∧ revertMoves (runMoves phg raw).1
        ((findMovesModel phg raw).2.filter (fun m => !m.valid)) =
        (findMovesModel phg raw).1 := by
  have hplen : bestIdx (runMoves phg raw).2 ≤ raw.length := by
    have h := bestIdx_le (runMoves phg raw).2
    rwa [runMoves_length] at h
  obtain ⟨hrevert, htake⟩ := fm_rollback_aux phg raw (bestIdx (runMoves phg raw).2) hplen
  have hfilter1 : (findMovesModel phg raw).2.filter (fun m => m.valid)
      = (runMoves phg (raw.take (bestIdx (runMoves phg raw).2))).2 := by
    show ((runMoves phg raw).2.take (bestIdx (runMoves phg raw).2)
        ++ ((runMoves phg raw).2.drop (bestIdx (runMoves phg raw).2)).map markInvalid).filter
          (fun m => m.valid) = _
    rw [List.filter_append,
      List.filter_eq_self.mpr
        (fun m hm => runMoves_all_valid phg raw m (List.mem_of_mem_take hm)),
      List.filter_eq_nil_iff.mpr ?hinv, List.append_nil, htake]
    case hinv =>
      intro m hm
      obtain ⟨x, _, rfl⟩ := List.mem_map.mp hm
      simp [markInvalid]
  have hfilter2 : (findMovesModel phg raw).2.filter (fun m => !m.valid)
      = ((runMoves phg raw).2.drop (bestIdx (runMoves phg raw).2)).map markInvalid := by
    show ((runMoves phg raw).2.take (bestIdx (runMoves phg raw).2)
        ++ ((runMoves phg raw).2.drop (bestIdx (runMoves phg raw).2)).map markInvalid).filter
          (fun m => !m.valid) = _
    rw [List.filter_append,
      List.filter_eq_nil_iff.mpr ?hval,
      List.filter_eq_self.mpr ?hinv2, List.nil_append]
    case hval =>
      intro m hm
      rw [runMoves_all_valid phg raw m (List.mem_of_mem_take hm)]
      simp
    case hinv2 =>
      intro m hm
      obtain ⟨x, _, rfl⟩ := List.mem_map.mp hm
      simp [markInvalid]
  constructor
  · have hfin : (findMovesModel phg raw).1
        = revertMoves (runMoves phg raw).1
            ((runMoves phg raw).2.drop (bestIdx (runMoves phg raw).2)) := rfl
    rw [hfin, hrevert, km1_runMoves phg (raw.take (bestIdx (runMoves phg raw).2)), hfilter1]
  · rw [hfilter2, revertMoves_map_markInvalid]
    rfl
